import Mathlib

/-!
Verification of the post-to-letter transformation pipeline of the heard-app
repository (scripts `populate_from_reddit.py` and
`populate_from_multiple_subreddits.py` under `database/populate_letters/`).

Text is modelled as `List Char`; Python string operations (lower, strip,
substring containment, regex scans used by the scripts) are embedded as
executable Lean functions over `List Char`.  Calls to external collaborators
(the Ollama model service, the Reddit client, the Supabase database) are
modelled by passing the collaborator's outcome as an explicit argument, and
Python's `random.choice(xs)` is modelled by an injected natural-number
randomness source `r`, picking `xs[r % xs.length]` so that every element is
reachable.  Recursive text scanners are written with an explicit fuel
argument equal to the input length (Python's `re.sub` loop always consumes at
least one character per step, so the zero-fuel branch is unreachable at the
fuel the wrappers supply); this keeps every definition structurally recursive
and hence directly evaluable.
-/

namespace HeardApp

/-- ASCII whitespace, matching Python's `str.strip` / regex `\s` on the ASCII
range (the scripts' keyword data and the inputs considered here are ASCII). -/
def isWS (c : Char) : Bool :=
  c = ' ' || c = '\t' || c = '\n' || c = '\r' || c.toNat = 11 || c.toNat = 12

/-- ASCII digit, matching regex `\d` on the ASCII range. -/
def isDigitC (c : Char) : Bool :=
  '0' ≤ c && c ≤ '9'

/-- Python `str.lower()` on the ASCII range. -/
def lowerL (s : List Char) : List Char :=
  s.map Char.toLower

/-- Python `needle in hay` (substring containment). -/
def subStr (needle hay : List Char) : Bool :=
  hay.tails.any (fun t => needle.isPrefixOf t)

/-- Python `str.strip()`: remove leading and trailing whitespace. -/
def stripBoth (s : List Char) : List Char :=
  ((s.dropWhile isWS).reverse.dropWhile isWS).reverse

/-- A category row fetched from the `categories` table: only the fields the
pipeline logic reads (`id`, `name`).  The optional `description` is used only
to build the model prompt, which does not influence the modelled results. -/
structure Category where
  id : String
  name : String
deriving DecidableEq, Repr

/-- Outcome of one `ollama.chat`-style interaction in
`populate_from_multiple_subreddits.py`: the `is_ollama_running()` guard
reported the service down, the chat call returned a message content, or the
chat call raised. -/
inductive OChat where
  | notRunning
  | ok (resp : String)
  | err
deriving DecidableEq, Repr

/-! ### Metadata Synthesizer: mood emoji (`ollama_get_emoji`, multi-subreddit
script lines 64-87) -/

/-- Embeds `ALLOWED_EMOJIS` from `populate_from_multiple_subreddits.py`. -/
def ALLOWED_EMOJIS : List Char :=
  ['😌', '🤗', '👌', '💗', '😁', '🥱', '😪', '😕', '😖', '😈',
   '😟', '😴', '😢', '🫥', '💔', '😩', '😡', '🫨', '😨', '🫠']

/-- Embeds `DEFAULT_EMOJI` from the script. -/
def DEFAULT_EMOJI : Char := '😌'

/-- The character class `[\U0001F300-\U0001FAFF]` used by
`re.findall` in `ollama_get_emoji`. -/
def isEmojiChar (c : Char) : Bool :=
  0x1F300 ≤ c.toNat && c.toNat ≤ 0x1FAFF

/-- Embeds `random.choice(ALLOWED_EMOJIS)` with injected randomness `r`. -/
def randomChoiceEmoji (r : Nat) : Char :=
  ALLOWED_EMOJIS.getD (r % ALLOWED_EMOJIS.length) DEFAULT_EMOJI

/-- Embeds `ollama_get_emoji` (lines 64-87): on success, strip the response, take the
first character in the emoji range, and keep it only if it is in the allowed
list; otherwise (and on any error) pick a random allowed emoji; if Ollama is
not running, return the default emoji.  The `_text` argument only shapes the
prompt and does not influence the modelled result. -/
def ollama_get_emoji (_text : List Char) (o : OChat) (r : Nat) : Char :=
  match o with
  | .notRunning => DEFAULT_EMOJI
  | .err => randomChoiceEmoji r
  | .ok resp =>
    let found := (stripBoth resp.data).filter isEmojiChar
    match found.head? with
    | some e => if e ∈ ALLOWED_EMOJIS then e else randomChoiceEmoji r
    | none => randomChoiceEmoji r

/-! ### Metadata Synthesizer: display name (`ollama_get_display_name`,
multi-subreddit script lines 89-111; `generate_display_name`,
`populate_from_reddit.py` lines 266-268) -/

/-- Embeds `DEFAULT_DISPLAY_NAME` from the script. -/
def DEFAULT_DISPLAY_NAME : String := "Anon"

/-- The processing `response['message']['content'].strip().lower()` followed
by `name.replace(" ", "")` in `ollama_get_display_name`. -/
def processedName (resp : String) : List Char :=
  (lowerL (stripBoth resp.data)).filter (fun c => c ≠ ' ')

/-- Embeds `ollama_get_display_name` (lines 89-111): if Ollama is not running return
`DEFAULT_DISPLAY_NAME` ("Anon", line 93); on success strip/lower the response
and remove spaces, returning it when its length is `< 30` and otherwise the
lowercased default; on an exception return the lowercased default. -/
def ollama_get_display_name (_text : List Char) (o : OChat) : List Char :=
  match o with
  | .notRunning => DEFAULT_DISPLAY_NAME.data
  | .err => lowerL DEFAULT_DISPLAY_NAME.data
  | .ok resp =>
    let name := processedName resp
    if name.length < 30 then name else lowerL DEFAULT_DISPLAY_NAME.data

/-- Embeds `generate_display_name` (`populate_from_reddit.py` lines 266-268): returns
`fake.user_name()` unchanged.  The Faker library is an external collaborator,
so its output is the explicit argument; the function applies no validation. -/
def generate_display_name (_author : String) (fakerOutput : List Char) : List Char :=
  fakerOutput

/-! #### Helper lemmas -/

theorem getD_mem_of_mem {l : List Char} {d : Char} (i : Nat) (hd : d ∈ l) :
    l.getD i d ∈ l := by
  by_cases h : i < l.length
  · rw [List.getD_eq_getElem l d h]
    exact List.getElem_mem h
  · rw [List.getD_eq_default l d (Nat.le_of_not_lt h)]
    exact hd

theorem randomChoiceEmoji_mem (r : Nat) : randomChoiceEmoji r ∈ ALLOWED_EMOJIS :=
  getD_mem_of_mem _ (by decide)

/-- C3: for every model response (including adversarial text with no emoji or
emojis outside the allowed list) and for the unavailable/raising cases, the
mood-tag synthesizer `ollama_get_emoji` returns a member of `ALLOWED_EMOJIS`. -/
theorem mood_emoji_always_allowed (t : List Char) (o : OChat) (r : Nat) :
    ollama_get_emoji t o r ∈ ALLOWED_EMOJIS := by
  cases o with
  | notRunning => show DEFAULT_EMOJI ∈ ALLOWED_EMOJIS; decide
  | err => exact randomChoiceEmoji_mem r
  | ok resp =>
    simp only [ollama_get_emoji]
    cases ((stripBoth resp.data).filter isEmojiChar).head? with
    | none => exact randomChoiceEmoji_mem r
    | some e =>
      by_cases he : e ∈ ALLOWED_EMOJIS
      · simp [he]
      · simpa [he] using randomChoiceEmoji_mem r

/-- Instantiation of `mood_emoji_always_allowed` at a concrete adversarial
response containing no emoji at all. -/
theorem mood_emoji_always_allowed_witness :
    ollama_get_emoji [] (OChat.ok "no emoji here $%#") 7 ∈ ALLOWED_EMOJIS :=
  mood_emoji_always_allowed [] (OChat.ok "no emoji here $%#") 7

/-- C2 counterexample: the model-assisted display-name generator accepts the
empty response, producing an empty (0-character) display name and refuting the
claimed 1-character lower bound. -/
theorem display_name_empty_accepted_cex :
    ollama_get_display_name [] (OChat.ok "") = [] ∧
    (ollama_get_display_name [] (OChat.ok "")).length = 0 := by
  exact ⟨rfl, rfl⟩

/-- C2 amended: every display name produced by `ollama_get_display_name` has
fewer than 30 characters; processed responses of 30 or more characters are
rejected in favour of the lowercased default pseudonym; the fake-username path
`generate_display_name` passes the Faker output through without validation
(and in particular enforces no bound at all).  The generator can, however,
return the empty name (see the counterexample). -/
theorem display_name_length_bounds :
    (∀ t o, (ollama_get_display_name t o).length < 30) ∧
    (∀ t resp, 30 ≤ (processedName resp).length →
      ollama_get_display_name t (.ok resp) = lowerL DEFAULT_DISPLAY_NAME.data) ∧
    (∀ a f, generate_display_name a f = f) := by
  refine ⟨?_, ?_, fun _ _ => rfl⟩
  · intro t o
    cases o with
    | notRunning => show (DEFAULT_DISPLAY_NAME.data).length < 30; decide
    | err => show (lowerL DEFAULT_DISPLAY_NAME.data).length < 30; decide
    | ok resp =>
      simp only [ollama_get_display_name]
      split
      · assumption
      · decide
  · intro t resp h
    simp only [ollama_get_display_name]
    rw [if_neg (Nat.not_lt.mpr h)]

/-- Instantiation of `display_name_length_bounds` at a concrete 31-character
response, which is rejected in favour of the default pseudonym. -/
theorem display_name_length_bounds_witness :
    30 ≤ (processedName "abcdefghijklmnopqrstuvwxyzabcde").length ∧
    ollama_get_display_name [] (OChat.ok "abcdefghijklmnopqrstuvwxyzabcde") =
      lowerL DEFAULT_DISPLAY_NAME.data :=
  ⟨by decide, display_name_length_bounds.2.1 [] _ (by decide)⟩

/-! ### Category Classifier (`populate_from_reddit.py` lines 122-263) -/

/-- Embeds `category_keywords` from `assign_category_keyword` (lines 208-218), in the
source's (insertion-ordered) iteration order. -/
def CATEGORY_KEYWORDS : List (String × List String) :=
  [("Love", ["love", "relationship", "boyfriend", "girlfriend", "dating", "marriage",
             "crush", "partner", "husband", "wife", "romance", "breakup", "ex"]),
   ("Financial", ["money", "debt", "finance", "financial", "job", "income", "loan",
                  "budget", "savings", "bills", "rent", "salary", "career", "bank",
                  "tax", "invest"]),
   ("Family", ["family", "parent", "mother", "father", "dad", "mom", "son", "daughter",
               "sibling", "brother", "sister", "grandparent", "cousin", "uncle", "aunt",
               "in-law", "child"]),
   ("Friendship", ["friend", "friendship", "best friend", "buddy", "pal", "social circle",
                   "acquaintance", "colleague", "betrayal", "trust"]),
   ("Vent", ["angry", "frustrated", "tired of", "sick of", "annoyed", "irritated",
             "furious", "fed up", "rant", "vent", "complaint", "venting", "upset", "mad"]),
   ("Health", ["health", "doctor", "medical", "sick", "illness", "disease", "diagnosis",
               "pain", "symptom", "weight", "diet", "exercise", "mental health",
               "therapy", "medication"]),
   ("Reflections", ["thinking about", "reflect", "wonder", "contemplating", "perspective",
                    "realization", "epiphany", "awakening", "retrospect", "introspection",
                    "growth", "change"]),
   ("Intimacy", ["sex", "intimate", "physical", "sexual", "attraction", "desire",
                 "bedroom", "consent", "virgin", "pleasure", "passion"]),
   ("Spiritual", ["god", "faith", "religion", "spiritual", "belief", "prayer",
                  "meditation", "soul", "universe", "divine", "church", "temple",
                  "mosque", "worship"])]

/-- The `matches` dictionary of `assign_category_keyword` (lines 224-227):
each mapping name scored by the number of its keywords occurring in the
lowercased post content. -/
def matchScores (post_content : List Char) : List (String × Nat) :=
  CATEGORY_KEYWORDS.map
    (fun nk => (nk.1, (nk.2.filter (fun k => subStr k.data (lowerL post_content))).length))

/-- Python `max(matches.items(), key=lambda x: x[1])` (line 230): the first
item attaining the maximal score, in iteration order. -/
def firstMax : List (String × Nat) → String × Nat
  | [] => ("", 0)
  | x :: xs => xs.foldl (fun a b => if b.2 > a.2 then b else a) x

/-- Embeds `random.choice(categories)` with injected randomness `r`; `none` models
the `IndexError` Python raises on an empty list. -/
def randomChoiceCat (cats : List Category) (r : Nat) : Option Category :=
  cats[r % cats.length]?

/-- Embeds `assign_category_keyword` (lines 202-242): pick the best-scoring mapping
name; if the best score is zero choose a random supplied category, otherwise
return the first supplied category whose name equals the best-scoring mapping
name, falling back to the first supplied category (line 242).  `none` models a
raised exception (only possible with an empty category list). -/
def assign_category_keyword (post_content : List Char) (cats : List Category)
    (r : Nat) : Option String :=
  if (firstMax (matchScores post_content)).2 = 0 then
    (randomChoiceCat cats r).map (fun c => c.id)
  else
    match cats.find? (fun c => c.name = (firstMax (matchScores post_content)).1) with
    | some c => some c.id
    | none => (cats.head?).map (fun c => c.id)

/-- Outcome of the `requests.post` call in `assign_category_with_ollama`: a
raised exception (transport error or timeout), or a response with an HTTP
status and the extracted `response` text field. -/
inductive HttpOutcome where
  | exc
  | resp (status : Nat) (text : String)
deriving DecidableEq, Repr

/-- Embeds `assign_category_with_ollama` (lines 122-199): on HTTP 200, try an exact
case-insensitive match of the stripped response against a category name, then
a substring match of a category name inside the response; in every other case
(no match, non-200 status, raised exception) fall back to
`assign_category_keyword` on the same input. -/
def assign_category_with_ollama (o : HttpOutcome) (post_content : List Char)
    (cats : List Category) (r : Nat) : Option String :=
  match o with
  | .exc => assign_category_keyword post_content cats r
  | .resp status text =>
    if status = 200 then
      match cats.find? (fun c => lowerL c.name.data = lowerL (stripBoth text.data)) with
      | some c => some c.id
      | none =>
        match cats.find?
            (fun c => subStr (lowerL c.name.data) (lowerL (stripBoth text.data))) with
        | some c => some c.id
        | none => assign_category_keyword post_content cats r
    else assign_category_keyword post_content cats r

/-- The failure condition of the model-assisted call: exception, non-success
HTTP status, or a 200 response matching no category name exactly or
partially. -/
def modelCallFails (o : HttpOutcome) (cats : List Category) : Bool :=
  match o with
  | .exc => true
  | .resp status text =>
    if status = 200 then
      (cats.find? (fun c => lowerL c.name.data = lowerL (stripBoth text.data))).isNone &&
      (cats.find?
        (fun c => subStr (lowerL c.name.data) (lowerL (stripBoth text.data)))).isNone
    else true

/-- C4: whenever the model-assisted call fails (transport error/timeout,
non-success status, or a response matching no category), the model-assisted
classifier returns exactly the keyword-strategy result for the same input and
the same randomness source. -/
theorem ollama_classifier_fallback_eq_keyword (o : HttpOutcome) (post : List Char)
    (cats : List Category) (r : Nat) (h : modelCallFails o cats = true) :
    assign_category_with_ollama o post cats r = assign_category_keyword post cats r := by
  cases o with
  | exc => rfl
  | resp status text =>
    by_cases hs : status = 200
    · simp only [modelCallFails, if_pos hs, Bool.and_eq_true,
        Option.isNone_iff_eq_none] at h
      simp only [assign_category_with_ollama, if_pos hs, h.1, h.2]
    · simp only [assign_category_with_ollama, if_neg hs]

/-- Instantiation of `ollama_classifier_fallback_eq_keyword` at a concrete
non-success (HTTP 500) outcome. -/
theorem ollama_classifier_fallback_eq_keyword_witness :
    modelCallFails (HttpOutcome.resp 500 "oops") [⟨"c1", "Love"⟩] = true ∧
    assign_category_with_ollama (HttpOutcome.resp 500 "oops") ("hello".data)
        [⟨"c1", "Love"⟩] 2 =
      assign_category_keyword ("hello".data) [⟨"c1", "Love"⟩] 2 :=
  ⟨by decide, ollama_classifier_fallback_eq_keyword _ _ _ 2 (by decide)⟩

/-- C6: for a non-empty supplied category list, the keyword classifier always
returns the id of some supplied category (never `none`, which models a raised
exception), regardless of the input text and the randomness source. -/
theorem keyword_classifier_total (post : List Char) (cats : List Category) (r : Nat)
    (h : cats ≠ []) :
    ∃ c ∈ cats, assign_category_keyword post cats r = some c.id := by
  unfold assign_category_keyword
  split
  · have hlen : 0 < cats.length := List.length_pos.mpr h
    have hm : r % cats.length < cats.length := Nat.mod_lt _ hlen
    refine ⟨cats[r % cats.length], List.getElem_mem hm, ?_⟩
    simp [randomChoiceCat, List.getElem?_eq_getElem hm]
  · cases hf : cats.find? (fun c => c.name = (firstMax (matchScores post)).1) with
    | some c => exact ⟨c, List.mem_of_find?_eq_some hf, by simp [hf]⟩
    | none =>
      cases cats with
      | nil => exact absurd rfl h
      | cons c0 tl => exact ⟨c0, List.mem_cons_self _ _, by simp [hf]⟩

/-- Instantiation of `keyword_classifier_total` at a text containing zero
indicator keywords for every category of the mapping. -/
theorem keyword_classifier_total_witness :
    ([⟨"c1", "Love"⟩, ⟨"c2", "Vent"⟩] : List Category) ≠ [] ∧
    ∃ c ∈ ([⟨"c1", "Love"⟩, ⟨"c2", "Vent"⟩] : List Category),
      assign_category_keyword ("zzz qqq".data) [⟨"c1", "Love"⟩, ⟨"c2", "Vent"⟩] 3 =
        some c.id :=
  ⟨by decide, keyword_classifier_total ("zzz qqq".data) _ 3 (by decide)⟩

theorem find?_eq_some_split {p : Category → Bool} {l : List Category} {c : Category}
    (h : l.find? p = some c) :
    ∃ l1 l2, l = l1 ++ c :: l2 ∧ p c = true ∧ ∀ d ∈ l1, p d = false := by
  induction l with
  | nil => simp at h
  | cons a t ih =>
    by_cases hp : p a
    · rw [List.find?_cons_of_pos _ hp] at h
      obtain rfl := Option.some.inj h
      exact ⟨[], t, rfl, hp, by simp⟩
    · rw [List.find?_cons_of_neg _ (by simpa using hp)] at h
      obtain ⟨l1, l2, rfl, hc, hl1⟩ := ih h
      refine ⟨a :: l1, l2, rfl, hc, ?_⟩
      intro d hd
      rcases List.mem_cons.mp hd with rfl | hd
      · simpa using hp
      · exact hl1 d hd

/-- C7 counterexample: on the text "love money debt" with supplied categories
Health (id c1) and Love (id c2), the best-scoring mapping name is "Financial"
(score 2, strictly positive) while "Love" scores 1 and "Health" scores 0, yet
the classifier returns c1 — the Health category, which does not hold the
highest score under any reading of the claim. -/
theorem keyword_best_score_not_returned_cex :
    (firstMax (matchScores ("love money debt".data))).1 = "Financial" ∧
    (firstMax (matchScores ("love money debt".data))).2 = 2 ∧
    assign_category_keyword ("love money debt".data)
      [⟨"c1", "Health"⟩, ⟨"c2", "Love"⟩] 0 = some "c1" ∧
    (matchScores ("love money debt".data)).lookup "Love" = some 1 ∧
    (matchScores ("love money debt".data)).lookup "Health" = some 0 := by
  decide

/-- C7 amended: when the best score over the keyword mapping is strictly
positive, the keyword classifier is deterministic (its result does not depend
on the randomness source), and it returns the id of the first supplied
category whose name equals the first-seen best-scoring mapping name when one
exists — otherwise the id of the first supplied category. -/
theorem keyword_classifier_deterministic_pos (txt : List Char) (cats : List Category)
    (r : Nat) (h : (firstMax (matchScores txt)).2 ≠ 0) :
    (∀ r', assign_category_keyword txt cats r' = assign_category_keyword txt cats r) ∧
    ((∃ c l1 l2, cats = l1 ++ c :: l2 ∧ c.name = (firstMax (matchScores txt)).1 ∧
        (∀ d ∈ l1, d.name ≠ (firstMax (matchScores txt)).1) ∧
        assign_category_keyword txt cats r = some c.id) ∨
      ((∀ c ∈ cats, c.name ≠ (firstMax (matchScores txt)).1) ∧
        assign_category_keyword txt cats r = (cats.head?).map (fun c => c.id))) := by
  constructor
  · intro r'
    unfold assign_category_keyword
    rw [if_neg h, if_neg h]
  · unfold assign_category_keyword
    rw [if_neg h]
    cases hf : cats.find? (fun c => c.name = (firstMax (matchScores txt)).1) with
    | some c =>
      obtain ⟨l1, l2, heq, hc, hl1⟩ := find?_eq_some_split hf
      exact Or.inl ⟨c, l1, l2, heq, by simpa using hc,
        fun d hd => by simpa using hl1 d hd, rfl⟩
    | none =>
      refine Or.inr ⟨fun c hc => ?_, rfl⟩
      simpa using List.find?_eq_none.mp hf c hc

/-- Instantiation of `keyword_classifier_deterministic_pos` at a text whose
best-scoring mapping name ("Love", score 2) is among the supplied
categories. -/
theorem keyword_classifier_deterministic_pos_witness :
    (firstMax (matchScores ("love relationship".data))).2 ≠ 0 ∧
    ((∀ r', assign_category_keyword ("love relationship".data) [⟨"c1", "Love"⟩] r' =
        assign_category_keyword ("love relationship".data) [⟨"c1", "Love"⟩] 0) ∧
      ((∃ c l1 l2, ([⟨"c1", "Love"⟩] : List Category) = l1 ++ c :: l2 ∧
          c.name = (firstMax (matchScores ("love relationship".data))).1 ∧
          (∀ d ∈ l1, d.name ≠ (firstMax (matchScores ("love relationship".data))).1) ∧
          assign_category_keyword ("love relationship".data) [⟨"c1", "Love"⟩] 0 =
            some c.id) ∨
        ((∀ c ∈ ([⟨"c1", "Love"⟩] : List Category),
            c.name ≠ (firstMax (matchScores ("love relationship".data))).1) ∧
          assign_category_keyword ("love relationship".data) [⟨"c1", "Love"⟩] 0 =
            (([⟨"c1", "Love"⟩] : List Category).head?).map (fun c => c.id)))) :=
  ⟨by decide, keyword_classifier_deterministic_pos ("love relationship".data)
    [⟨"c1", "Love"⟩] 0 (by decide)⟩

/-- C10: with a strictly positive best score whose mapping name matches no
supplied category, the classifier silently returns the first supplied
category's id (no randomness, no error). -/
theorem keyword_unknown_best_falls_to_first (txt : List Char) (cats : List Category)
    (r : Nat) (h : (firstMax (matchScores txt)).2 ≠ 0)
    (hnone : ∀ c ∈ cats, c.name ≠ (firstMax (matchScores txt)).1) :
    assign_category_keyword txt cats r = (cats.head?).map (fun c => c.id) := by
  unfold assign_category_keyword
  rw [if_neg h]
  have hf : cats.find? (fun c => c.name = (firstMax (matchScores txt)).1) = none :=
    List.find?_eq_none.mpr (fun c hc => by simpa using hnone c hc)
  rw [hf]

/-- Instantiation of `keyword_unknown_best_falls_to_first` at the text
"faith prayer" (best mapping name "Spiritual", score 2) with the single
supplied category Vent: the classifier returns Vent's id. -/
theorem keyword_unknown_best_falls_to_first_witness :
    ((firstMax (matchScores ("faith prayer".data))).2 ≠ 0 ∧
      (∀ c ∈ ([⟨"c9", "Vent"⟩] : List Category),
        c.name ≠ (firstMax (matchScores ("faith prayer".data))).1)) ∧
    assign_category_keyword ("faith prayer".data) [⟨"c9", "Vent"⟩] 5 = some "c9" := by
  refine ⟨⟨by decide, by decide⟩, ?_⟩
  rw [keyword_unknown_best_falls_to_first ("faith prayer".data) [⟨"c9", "Vent"⟩] 5
    (by decide) (by decide)]
  rfl

/-! ### Batch Orchestrator deduplication
(`fetch_from_all_categories`, `populate_from_multiple_subreddits.py` lines
376-379: `unique_posts = {post['id']: post for post in all_posts}.values()`) -/

/-- A fetched post: the fields of the per-post dictionaries built by
`fetch_posts` that the modelled pipeline logic reads (`id`, `title`,
`content`, and the `category_name` attached by `fetch_from_all_categories`).
The remaining fields (`author`, `created_utc`, `url`, `subreddit`) are carried
along by the scripts but never branch the modelled logic. -/
structure RawPost where
  id : String
  title : String
  content : String
  categoryName : String
deriving DecidableEq, Repr

/-- Key-equality test for dictionary entries. -/
def keyIs (i : String) : (String × RawPost) → Bool := fun kv => kv.1 = i

/-- One assignment `d[post['id']] = post` of the Python dict comprehension:
an existing key keeps its position and gets the new value, a fresh key is
appended. -/
def upsert (m : List (String × RawPost)) (p : RawPost) : List (String × RawPost) :=
  if (m.find? (keyIs p.id)).isSome then
    m.map (fun kv => if kv.1 = p.id then (kv.1, p) else kv)
  else m ++ [(p.id, p)]

/-- Embeds `{post['id']: post for post in all_posts}.values()` (line 377): build the
insertion-ordered dict by successive assignments and take the values. -/
def unique_posts (all_posts : List RawPost) : List RawPost :=
  (all_posts.foldl upsert []).map Prod.snd

/-- The keys of the modelled dict, in insertion order. -/
def keysOf (m : List (String × RawPost)) : List String := m.map Prod.fst

theorem find?_map_update (m : List (String × RawPost)) (p : RawPost) (i : String) :
    (m.map (fun kv => if kv.1 = p.id then (kv.1, p) else kv)).find? (keyIs i) =
      if i = p.id then (m.find? (keyIs p.id)).map (fun kv => (kv.1, p))
      else m.find? (keyIs i) := by
  induction m with
  | nil => by_cases hi : i = p.id <;> simp [hi]
  | cons a t ih =>
    by_cases ha : a.1 = p.id
    · by_cases hi : i = p.id
      · subst hi
        simp [keyIs, ha, List.find?_cons]
      · have hc1 : ¬(keyIs i (a.1, p) = true) := by
          simp only [keyIs, decide_eq_true_eq]
          rw [ha]
          exact fun hh => hi hh.symm
        have hc2 : ¬(keyIs i a = true) := by
          simp only [keyIs, decide_eq_true_eq]
          rw [ha]
          exact fun hh => hi hh.symm
        simp only [List.map_cons, if_pos ha]
        rw [List.find?_cons_of_neg _ hc1, ih]
        simp only [if_neg hi]
        rw [List.find?_cons_of_neg _ hc2]
    · by_cases hb : a.1 = i
      · have hi : i ≠ p.id := fun h => ha (hb.trans h)
        have hcp : keyIs i a = true := by simp [keyIs, hb]
        simp only [List.map_cons, if_neg ha, if_neg hi]
        rw [List.find?_cons_of_pos _ hcp, List.find?_cons_of_pos _ hcp]
      · have hcn1 : ¬(keyIs i a = true) := by simp [keyIs, hb]
        simp only [List.map_cons, if_neg ha]
        rw [List.find?_cons_of_neg _ hcn1, ih]
        by_cases hi : i = p.id
        · have hcn2 : ¬(keyIs p.id a = true) := by simp [keyIs, ha]
          rw [if_pos hi, if_pos hi, List.find?_cons_of_neg _ hcn2]
        · rw [if_neg hi, if_neg hi, List.find?_cons_of_neg _ hcn1]

theorem find?_append_new (m : List (String × RawPost)) (p : RawPost) (i : String)
    (h : ∀ kv ∈ m, kv.1 ≠ p.id) :
    (m ++ [(p.id, p)]).find? (keyIs i) =
      if i = p.id then some (p.id, p) else m.find? (keyIs i) := by
  induction m with
  | nil =>
    by_cases hi : i = p.id
    · simp [keyIs, hi]
    · have hcn : ¬(keyIs i (p.id, p) = true) := by
        simp only [keyIs, decide_eq_true_eq]
        exact fun hh => hi hh.symm
      rw [if_neg hi]
      simp only [List.nil_append]
      rw [List.find?_cons_of_neg _ hcn]
  | cons a t ih =>
    have ha' : a.1 ≠ p.id := h a (List.mem_cons_self _ _)
    by_cases hb : a.1 = i
    · have hi : i ≠ p.id := fun hh => ha' (hb.trans hh)
      have hcp : keyIs i a = true := by simp [keyIs, hb]
      rw [List.cons_append, List.find?_cons_of_pos _ hcp,
        List.find?_cons_of_pos _ hcp, if_neg hi]
    · have hcn : ¬(keyIs i a = true) := by simp [keyIs, hb]
      rw [List.cons_append, List.find?_cons_of_neg _ hcn,
        ih (fun kv hkv => h kv (List.mem_cons_of_mem _ hkv))]
      by_cases hi : i = p.id
      · rw [if_pos hi, if_pos hi]
      · rw [if_neg hi, if_neg hi, List.find?_cons_of_neg _ hcn]

theorem find?_upsert (m : List (String × RawPost)) (p : RawPost) (i : String) :
    (upsert m p).find? (keyIs i) =
      if i = p.id then some (p.id, p) else m.find? (keyIs i) := by
  unfold upsert
  split
  · rename_i hs
    rw [find?_map_update]
    by_cases hi : i = p.id
    · rw [if_pos hi, if_pos hi]
      obtain ⟨kv₀, hkv⟩ := Option.isSome_iff_exists.mp hs
      have hk : kv₀.1 = p.id := by simpa [keyIs] using List.find?_some hkv
      rw [hkv]
      simp [hk]
    · rw [if_neg hi, if_neg hi]
  · rename_i hs
    have hnone : m.find? (keyIs p.id) = none := Option.not_isSome_iff_eq_none.mp hs
    refine find?_append_new m p i (fun kv hkv heq => ?_)
    have := List.find?_eq_none.mp hnone kv hkv
    simp [keyIs, heq] at this

theorem keysOf_upsert_mem (m : List (String × RawPost)) (p : RawPost)
    (hs : (m.find? (keyIs p.id)).isSome) :
    keysOf (upsert m p) = keysOf m := by
  unfold upsert
  rw [if_pos hs]
  unfold keysOf
  rw [List.map_map]
  refine List.map_congr_left (fun kv _ => ?_)
  by_cases hk : kv.1 = p.id <;> simp [hk]

theorem keysOf_upsert_new (m : List (String × RawPost)) (p : RawPost)
    (hs : ¬ (m.find? (keyIs p.id)).isSome) :
    keysOf (upsert m p) = keysOf m ++ [p.id] := by
  unfold upsert
  rw [if_neg hs]
  simp [keysOf]

/-- The invariant relating the processed posts to the modelled dict. -/
structure DictInv (posts : List RawPost) (m : List (String × RawPost)) : Prop where
  nodup : (keysOf m).Nodup
  keyid : ∀ kv ∈ m, kv.2.id = kv.1
  lookup : ∀ i : String, (m.find? (keyIs i)).map Prod.snd =
    (posts.filter (fun p => p.id = i)).getLast?
  complete : ∀ p ∈ posts, ∃ kv ∈ m, kv.1 = p.id

theorem dictInv_nil : DictInv [] [] := by
  refine ⟨List.nodup_nil, by simp, fun i => by simp, by simp⟩

theorem dictInv_step {posts : List RawPost} {m : List (String × RawPost)}
    (h : DictInv posts m) (p : RawPost) : DictInv (posts ++ [p]) (upsert m p) := by
  have hmemkeys : ∀ i, i ∈ keysOf m ↔ (m.find? (keyIs i)).isSome := by
    intro i
    rw [List.find?_isSome]
    constructor
    · intro hi
      obtain ⟨kv, hkv, hfst⟩ := List.mem_map.mp hi
      exact ⟨kv, hkv, by simp [keyIs, hfst]⟩
    · rintro ⟨kv, hkv, hp⟩
      have : kv.1 = i := by simpa [keyIs] using hp
      exact this ▸ List.mem_map_of_mem Prod.fst hkv
  constructor
  · by_cases hs : (m.find? (keyIs p.id)).isSome
    · rw [keysOf_upsert_mem m p hs]
      exact h.nodup
    · rw [keysOf_upsert_new m p hs]
      rw [List.nodup_append]
      exact ⟨h.nodup, List.nodup_singleton _,
        fun a ha hb => hs (by
          have : a = p.id := by simpa using hb
          exact (hmemkeys p.id).mp (this ▸ ha))⟩
  · intro kv hkv
    unfold upsert at hkv
    split at hkv
    · obtain ⟨kv₀, hkv₀, hfkv⟩ := List.mem_map.mp hkv
      by_cases hk : kv₀.1 = p.id
      · rw [if_pos hk] at hfkv
        rw [← hfkv]
        simpa using hk.symm
      · rw [if_neg hk] at hfkv
        exact hfkv ▸ h.keyid kv₀ hkv₀
    · rcases List.mem_append.mp hkv with hin | hin
      · exact h.keyid kv hin
      · have : kv = (p.id, p) := by simpa using hin
        simp [this]
  · intro i
    rw [find?_upsert, List.filter_append]
    by_cases hi : i = p.id
    · rw [if_pos hi]
      have hfp : List.filter (fun q => decide (q.id = i)) [p] = [p] := by
        simp [hi]
      rw [hfp, List.getLast?_concat]
      rfl
    · rw [if_neg hi]
      have hfe : List.filter (fun q => decide (q.id = i)) [p] = [] := by
        have hd : (decide (p.id = i)) = false := by
          simp only [decide_eq_false_iff_not]
          exact fun hh => hi hh.symm
        simp [List.filter, hd]
      rw [hfe, List.append_nil]
      exact h.lookup i
  · intro q hq
    rcases List.mem_append.mp hq with hin | hin
    · obtain ⟨kv, hkv, hfst⟩ := h.complete q hin
      by_cases hs : (m.find? (keyIs p.id)).isSome
      · refine ⟨(if kv.1 = p.id then (kv.1, p) else kv), ?_, ?_⟩
        · unfold upsert
          rw [if_pos hs]
          exact List.mem_map_of_mem _ hkv
        · have hfst' : (if kv.1 = p.id then (kv.1, p) else kv).1 = kv.1 := by
            split <;> rfl
          rw [hfst', hfst]
      · refine ⟨kv, ?_, hfst⟩
        unfold upsert
        rw [if_neg hs]
        exact List.mem_append_left _ hkv
    · have hqp : q = p := by simpa using hin
      by_cases hs : (m.find? (keyIs p.id)).isSome
      · obtain ⟨kv₀, hkv₀⟩ := Option.isSome_iff_exists.mp hs
        have hk : kv₀.1 = p.id := by simpa [keyIs] using List.find?_some hkv₀
        refine ⟨(kv₀.1, p), ?_, by rw [hqp, hk]⟩
        unfold upsert
        rw [if_pos hs]
        have hrw : (kv₀.1, p) = (if kv₀.1 = p.id then (kv₀.1, p) else kv₀) := by
          simp [hk]
        rw [hrw]
        exact List.mem_map_of_mem _ (List.mem_of_find?_eq_some hkv₀)
      · refine ⟨(p.id, p), ?_, by rw [hqp]⟩
        unfold upsert
        rw [if_neg hs]
        exact List.mem_append_right _ (by simp)

theorem dictInv_foldl (posts : List RawPost) :
    ∀ (pre : List RawPost) (m : List (String × RawPost)),
      DictInv pre m → DictInv (pre ++ posts) (posts.foldl upsert m) := by
  induction posts with
  | nil => intro pre m h; simpa using h
  | cons p ps ih =>
    intro pre m h
    have step := dictInv_step h p
    have := ih (pre ++ [p]) (upsert m p) step
    simpa [List.append_assoc] using this

theorem find?_self_of_nodup {m : List (String × RawPost)} {kv : String × RawPost}
    (hn : (keysOf m).Nodup) (hkv : kv ∈ m) : m.find? (keyIs kv.1) = some kv := by
  induction m with
  | nil => simp at hkv
  | cons a t ih =>
    rcases List.mem_cons.mp hkv with rfl | hin
    · exact List.find?_cons_of_pos _ (by simp [keyIs])
    · have hn' : (keysOf t).Nodup := (List.nodup_cons.mp hn).2
      have hane : a.1 ≠ kv.1 := by
        intro heq
        exact (List.nodup_cons.mp hn).1 (heq ▸ List.mem_map_of_mem Prod.fst hin)
      have hcn : ¬(keyIs kv.1 a = true) := by
        simp only [keyIs, decide_eq_true_eq]
        exact hane
      rw [List.find?_cons_of_neg _ hcn]
      exact ih hn' hin

/-- C1 counterexample: with two fetched posts sharing the id "x", the
deduplicated list keeps the second (last) record, not the first occurrence in
fetch order as the claim states. -/
theorem dedup_keeps_last_not_first_cex :
    unique_posts [⟨"x", "first", "a", "Love"⟩, ⟨"x", "second", "b", "Money"⟩] =
      [⟨"x", "second", "b", "Money"⟩] ∧
    (⟨"x", "second", "b", "Money"⟩ : RawPost) ≠ ⟨"x", "first", "a", "Love"⟩ := by
  decide

/-- C1 amended: the deduplication of `fetch_from_all_categories` yields
pairwise-distinct ids, covers every fetched id, and for each id keeps the
LAST occurrence in fetch order (Python dict assignment overwrites the value
of an existing key). -/
theorem dedup_unique_ids_keeps_last (posts : List RawPost) :
    ((unique_posts posts).map (fun p => p.id)).Nodup ∧
    (∀ p ∈ posts, ∃ q ∈ unique_posts posts, q.id = p.id) ∧
    (∀ q ∈ unique_posts posts,
      (posts.filter (fun p => p.id = q.id)).getLast? = some q) := by
  have hinv : DictInv posts (posts.foldl upsert []) := by
    simpa using dictInv_foldl posts [] [] dictInv_nil
  refine ⟨?_, ?_, ?_⟩
  · have : (unique_posts posts).map (fun p => p.id) = keysOf (posts.foldl upsert []) := by
      unfold unique_posts keysOf
      rw [List.map_map]
      exact List.map_congr_left (fun kv hkv => hinv.keyid kv hkv)
    rw [this]
    exact hinv.nodup
  · intro p hp
    obtain ⟨kv, hkv, hfst⟩ := hinv.complete p hp
    exact ⟨kv.2, List.mem_map_of_mem Prod.snd hkv, by rw [hinv.keyid kv hkv, hfst]⟩
  · intro q hq
    obtain ⟨kv, hkv, hsnd⟩ := List.mem_map.mp hq
    have hid : q.id = kv.1 := by rw [← hsnd]; exact hinv.keyid kv hkv
    have := hinv.lookup kv.1
    rw [find?_self_of_nodup hinv.nodup hkv] at this
    rw [hid, ← this]
    simp [hsnd]

/-- Instantiation of `dedup_unique_ids_keeps_last`: the duplicated id "x" is
still represented after deduplication. -/
theorem dedup_unique_ids_keeps_last_witness :
    (⟨"x", "t1", "c1", "Love"⟩ : RawPost) ∈
      [(⟨"x", "t1", "c1", "Love"⟩ : RawPost), ⟨"x", "t2", "c2", "Money"⟩] ∧
    ∃ q ∈ unique_posts [⟨"x", "t1", "c1", "Love"⟩, ⟨"x", "t2", "c2", "Money"⟩],
      q.id = (⟨"x", "t1", "c1", "Love"⟩ : RawPost).id :=
  ⟨by decide,
    (dedup_unique_ids_keeps_last
      [⟨"x", "t1", "c1", "Love"⟩, ⟨"x", "t2", "c2", "Money"⟩]).2.1 _ (by decide)⟩

/-! ### Safety Filter and Batch Orchestrator
(`populate_from_multiple_subreddits.py` lines 126-132, 201-209, 452-543) -/

/-- Embeds `SKIP_KEYWORDS` (lines 126-132). -/
def SKIP_KEYWORDS : List String :=
  ["suicide", "kill myself", "killing myself",
   "self harm", "cutting myself",
   "rape", "molest", "assault",
   "abuse", "domestic violence",
   "genocide", "terrorist", "terrorism"]

/-- Embeds `contains_skip_keywords` (lines 201-209): `keyword.lower() in text.lower()`
for any configured keyword. -/
def contains_skip_keywords (text : List Char) : Bool :=
  SKIP_KEYWORDS.any (fun k => subStr (lowerL k.data) (lowerL text))

/-- Number of Ollama interactions (the `ollama.list` ping inside
`is_ollama_running` plus the `ollama.chat` call when the ping succeeds) that
one model-assisted stage performs. -/
def ollamaInteractions : OChat → Nat
  | .notRunning => 1
  | .ok _ => 2
  | .err => 2

/-- Embeds `ollama_rewrite_post` (lines 48-62): on success return the stripped chat
response, on "not running" or exception return the original text. -/
def ollama_rewrite_post (text : List Char) (o : OChat) : List Char :=
  match o with
  | .notRunning => text
  | .ok resp => stripBoth resp.data
  | .err => text

/-- The inline expansion branch for short posts (lines 487-498), identical
fallback structure to `ollama_rewrite_post`. -/
def ollama_expand_post (text : List Char) (o : OChat) : List Char :=
  match o with
  | .notRunning => text
  | .ok resp => stripBoth resp.data
  | .err => text

/-- Embeds `len(text.split())`: number of maximal whitespace-free runs. -/
def wcAux : Bool → List Char → Nat
  | _, [] => 0
  | inw, c :: cs =>
    if isWS c then wcAux false cs else (if inw then 0 else 1) + wcAux true cs

/-- Python `len(s.split())`. -/
def wordCount (s : List Char) : Nat := wcAux false s

/-- Per-post outcome of the orchestrator's main loop: the skip `continue`s
(lines 462-477), a successful save increments `successful_saves`, and anything
else is counted as failed in the final summary (line 543). -/
inductive PostOutcome where
  | skipped
  | saved
  | failed
deriving DecidableEq, Repr

/-- The orchestrator's aggregate counters: `len(posts)` processed so far,
`skipped_posts`, `successful_saves`.  The failure count reported at line 543
is the derived quantity `processed - saved - skipped`. -/
structure Counters where
  processed : Nat
  skipped : Nat
  saved : Nat
deriving DecidableEq, Repr

/-- The derived failure count printed by the summary (line 543). -/
def failedOf (c : Counters) : Nat := c.processed - c.saved - c.skipped

def stepCounters (acc : Counters) : PostOutcome → Counters
  | .skipped => { acc with processed := acc.processed + 1, skipped := acc.skipped + 1 }
  | .saved => { acc with processed := acc.processed + 1, saved := acc.saved + 1 }
  | .failed => { acc with processed := acc.processed + 1 }

/-- The collaborator outcomes consumed while processing a single post:
one chat outcome per model-assisted stage, the randomness for the emoji
fallback, and whether the database insert succeeds. -/
structure ModelEnv where
  rewriteO : OChat
  emojiO : OChat
  nameO : OChat
  emojiRand : Nat
  saveOk : Bool

/-- One iteration of the orchestrator loop (lines 452-536) for a single post:
check skip keywords on `title + " " + content`, then the Reddit-mention rule,
then the category mapping; only afterwards run the model-assisted stages
(expansion for under-20-word posts, otherwise rewrite; then emoji and display
name) and the save.  The second component counts the Ollama interactions
performed; the synthesized letter fields (`_content1`, `_emoji`, `_dname`)
feed only the persisted record and do not alter control flow. -/
def processPost (env : ModelEnv) (catIds : List (String × String)) (p : RawPost) :
    PostOutcome × Nat :=
  if contains_skip_keywords (p.title.data ++ (' ' :: p.content.data)) then
    (.skipped, 0)
  else if subStr ("reddit".data) (lowerL (p.title.data ++ (' ' :: p.content.data))) then
    (.skipped, 0)
  else if p.categoryName = "" then
    (.skipped, 0)
  else
    match catIds.lookup p.categoryName with
    | none => (.skipped, 0)
    | some _ =>
      let _content1 := if wordCount p.content.data < 20
        then ollama_expand_post p.content.data env.rewriteO
        else ollama_rewrite_post p.content.data env.rewriteO
      let _emoji := ollama_get_emoji _content1 env.emojiO env.emojiRand
      let _dname := ollama_get_display_name _content1 env.nameO
      (if env.saveOk then PostOutcome.saved else PostOutcome.failed,
        ollamaInteractions env.rewriteO + ollamaInteractions env.emojiO +
          ollamaInteractions env.nameO)

/-- The orchestrator's sequential fold over the fetched posts (the same
collaborator outcomes are supplied to every post; only control flow is at
stake here). -/
def runBatch (env : ModelEnv) (catIds : List (String × String)) (acc : Counters) :
    List RawPost → Counters
  | [] => acc
  | p :: ps => runBatch env catIds (stepCounters acc (processPost env catIds p).1) ps

/-- C5: a post whose combined `title + " " + content` contains a configured
disallowed phrase is skipped with zero Ollama interactions (so before any
classification/transformation/metadata model call), the skip increments the
skipped counter and leaves the saved counter and the derived failed counter
unchanged, and the batch continues with the remaining posts. -/
theorem skip_keywords_before_model_calls (env : ModelEnv)
    (catIds : List (String × String)) (p : RawPost) (acc : Counters)
    (ps : List RawPost)
    (h : contains_skip_keywords (p.title.data ++ (' ' :: p.content.data)) = true) :
    processPost env catIds p = (.skipped, 0) ∧
    runBatch env catIds acc (p :: ps) =
      runBatch env catIds
        { acc with processed := acc.processed + 1, skipped := acc.skipped + 1 } ps ∧
    (stepCounters acc .skipped).saved = acc.saved ∧
    failedOf (stepCounters acc .skipped) = failedOf acc := by
  have h1 : processPost env catIds p = (.skipped, 0) := by
    unfold processPost
    rw [if_pos h]
  refine ⟨h1, ?_, rfl, ?_⟩
  · show runBatch env catIds (stepCounters acc (processPost env catIds p).1) ps = _
    rw [h1]
    rfl
  · unfold failedOf stepCounters
    simp only
    omega

/-- Instantiation of `skip_keywords_before_model_calls` at a concrete post
containing the configured phrase "abuse". -/
theorem skip_keywords_before_model_calls_witness :
    contains_skip_keywords
      ((("Need to talk" : String)).data ++
        (' ' :: (("It was abuse at home" : String)).data)) = true ∧
    processPost ⟨OChat.err, OChat.err, OChat.err, 0, true⟩ [("Family", "c3")]
      ⟨"p1", "Need to talk", "It was abuse at home", "Family"⟩ =
      (PostOutcome.skipped, 0) :=
  ⟨by decide,
    (skip_keywords_before_model_calls ⟨OChat.err, OChat.err, OChat.err, 0, true⟩
      [("Family", "c3")] ⟨"p1", "Need to talk", "It was abuse at home", "Family"⟩
      ⟨0, 0, 0⟩ [] (by decide)).1⟩

/-! ### Content Transformer (`rewrite_post_with_ollama`,
`populate_from_reddit.py` lines 271-352) -/

/-- Outcome of the transformer's `requests.post` call: a raised exception
(connection error or timeout), or an HTTP response with a status code and the
result of the regex-search/`eval`/key-validation parse of the response text —
`none` when no structured title+content pair could be extracted. -/
inductive RewriteOutcome where
  | exc
  | httpResp (status : Nat) (parsed : Option (List Char × List Char))
deriving DecidableEq, Repr

/-- Embeds `rewrite_post_with_ollama` (lines 271-352): only a 200 response whose
body parses to a title+content pair replaces the text; every other path
returns the original title and content unchanged. -/
def rewrite_post_with_ollama (title content : List Char) (o : RewriteOutcome) :
    List Char × List Char :=
  match o with
  | .exc => (title, content)
  | .httpResp status parsed =>
    if status = 200 then
      match parsed with
      | some tc => tc
      | none => (title, content)
    else (title, content)

/-- The transformer's failure condition: exception, non-success status, or an
unparseable structured response. -/
def rewriteFails : RewriteOutcome → Bool
  | .exc => true
  | .httpResp status parsed => if status = 200 then parsed.isNone else true

/-- C8: whenever the transformer's model call fails (connection error,
timeout, non-success status, or unparseable structured response), the
transformer returns the original title and cleaned content unchanged; the
simpler rewrite of the multi-subreddit script likewise returns the original
text when Ollama is down or raises. -/
theorem transformer_preserves_on_failure :
    (∀ title content o, rewriteFails o = true →
      rewrite_post_with_ollama title content o = (title, content)) ∧
    (∀ text, ollama_rewrite_post text OChat.notRunning = text ∧
      ollama_rewrite_post text OChat.err = text) := by
  constructor
  · intro title content o h
    cases o with
    | exc => rfl
    | httpResp status parsed =>
      by_cases hs : status = 200
      · have hp : parsed = none :=
          Option.isNone_iff_eq_none.mp (by simpa [rewriteFails, hs] using h)
        simp [rewrite_post_with_ollama, hs, hp]
      · simp [rewrite_post_with_ollama, hs]
  · exact fun text => ⟨rfl, rfl⟩

/-- Instantiation of `transformer_preserves_on_failure` at a concrete HTTP 500
outcome. -/
theorem transformer_preserves_on_failure_witness :
    rewriteFails (RewriteOutcome.httpResp 500 none) = true ∧
    rewrite_post_with_ollama ("t".data) ("c".data) (RewriteOutcome.httpResp 500 none) =
      ("t".data, "c".data) :=
  ⟨by decide, transformer_preserves_on_failure.1 _ _ _ (by decide)⟩

/-! ### Content Normalizer (`clean_content`, `populate_from_reddit.py` lines
103-119)

Each `re.sub` pass is embedded as a left-to-right scanner; on a match the
replacement is emitted and scanning resumes after the match, exactly as
`re.sub` does.  The scanners carry a fuel argument set to the input length by
their wrappers; each step consumes at least one input character, so the
zero-fuel branch is unreachable at that fuel. -/

def httpL : List Char := ['h', 't', 't', 'p', ':', '/', '/']

def httpsL : List Char := ['h', 't', 't', 'p', 's', ':', '/', '/']

/-- Drop an exact prefix, or fail. -/
def stripPfx : List Char → List Char → Option (List Char)
  | [], cs => some cs
  | _ :: _, [] => none
  | p :: ps, c :: cs => if p = c then stripPfx ps cs else none

/-- One anchored attempt of `https?://\S+` for a fixed scheme `p`: after the
scheme there must be at least one non-whitespace character, and the greedy
`\S+` consumes the maximal non-whitespace run. -/
def tryPfxUrl (p cs : List Char) : Option (List Char) :=
  match stripPfx p cs with
  | some (d :: rest) =>
    if isWS d then none else some (rest.dropWhile (fun x => !isWS x))
  | _ => none

/-- Anchored match of `https?://\S+` (line 106), returning the remainder
after the match. -/
def urlMatchAt (cs : List Char) : Option (List Char) :=
  match tryPfxUrl httpsL cs with
  | some r => some r
  | none => tryPfxUrl httpL cs

/-- Embeds `re.sub(r'https?://\S+', '', content)` (line 106). -/
def removeUrlsF : Nat → List Char → List Char
  | 0, _ => []
  | _ + 1, [] => []
  | fuel + 1, c :: cs =>
    match urlMatchAt (c :: cs) with
    | some rest => removeUrlsF fuel rest
    | none => c :: removeUrlsF fuel cs

def removeUrls (s : List Char) : List Char := removeUrlsF s.length s

/-- An anchored URL match exists at this position. -/
def urlAt (cs : List Char) : Bool := (urlMatchAt cs).isSome

/-- The text contains a substring matching `https?://\S+`. -/
def containsUrl : List Char → Bool
  | [] => false
  | c :: cs => urlAt (c :: cs) || containsUrl cs

/-- Lazy scan to the first occurrence of `target` with no newline before it
(the `.` of the link regex does not match newlines), returning the consumed
segment and the remainder after `target`. -/
def scanTo (target : Char) : List Char → Option (List Char × List Char)
  | [] => none
  | c :: cs =>
    if c = target then some ([], cs)
    else if c = '\n' then none
    else (scanTo target cs).map (fun sr => (c :: sr.1, sr.2))

/-- Matching of `(.*?)\]\(.*?\)` after an opening `[`: the lazy label tries
successive `]` candidates (extending past a `]` whose `(...)` part cannot be
completed, as the backtracking regex engine does) and the lazy body stops at
the first `)`. -/
def tryLabel : List Char → Option (List Char × List Char)
  | [] => none
  | c :: cs =>
    if c = '\n' then none
    else if c = ']' then
      match cs with
      | '(' :: cs2 =>
        match scanTo ')' cs2 with
        | some sr => some ([], sr.2)
        | none => (tryLabel cs).map (fun lr => (c :: lr.1, lr.2))
      | _ => (tryLabel cs).map (fun lr => (c :: lr.1, lr.2))
    else (tryLabel cs).map (fun lr => (c :: lr.1, lr.2))

/-- Embeds `re.sub(r'\[(.*?)\]\(.*?\)', r'\1', content)` (line 109): replace a
markup link by its label. -/
def collapseLinksF : Nat → List Char → List Char
  | 0, _ => []
  | _ + 1, [] => []
  | fuel + 1, c :: cs =>
    if c = '[' then
      match tryLabel cs with
      | some lr => lr.1 ++ collapseLinksF fuel lr.2
      | none => c :: collapseLinksF fuel cs
    else c :: collapseLinksF fuel cs

def collapseLinks (s : List Char) : List Char := collapseLinksF s.length s

/-- Case-insensitive exact-prefix drop (for `re.IGNORECASE` on an ASCII
word given in lowercase). -/
def stripPfxCI : List Char → List Char → Option (List Char)
  | [], cs => some cs
  | _ :: _, [] => none
  | p :: ps, c :: cs => if p = c.toLower then stripPfxCI ps cs else none

/-- Anchored match of `word(\s*\d*\s*)?:` with `re.IGNORECASE` (lines
112-113): the greedy spaces/digits/spaces consume is equivalent to the
backtracking search because `:` belongs to neither class. -/
def markerMatchAt (word : List Char) (cs : List Char) : Option (List Char) :=
  match stripPfxCI word cs with
  | none => none
  | some r1 =>
    match ((r1.dropWhile isWS).dropWhile isDigitC).dropWhile isWS with
    | ':' :: rest => some rest
    | _ => none

/-- Embeds `re.sub(r'word(\s*\d*\s*)?:', '', content, flags=re.IGNORECASE)`. -/
def removeMarkerF (word : List Char) : Nat → List Char → List Char
  | 0, _ => []
  | _ + 1, [] => []
  | fuel + 1, c :: cs =>
    match markerMatchAt word (c :: cs) with
    | some rest => removeMarkerF word fuel rest
    | none => c :: removeMarkerF word fuel cs

def removeMarker (word : List Char) (s : List Char) : List Char :=
  removeMarkerF word s.length s

def twoNL : List Char → Bool
  | a :: b :: _ => a = '\n' && b = '\n'
  | _ => false

/-- Embeds `re.sub(r'\n{3,}', '\n\n', content)` (line 116): a maximal run of three
or more newlines becomes exactly two. -/
def collapseNLF : Nat → List Char → List Char
  | 0, _ => []
  | _ + 1, [] => []
  | fuel + 1, c :: cs =>
    if c = '\n' && twoNL cs then
      '\n' :: '\n' :: collapseNLF fuel (cs.dropWhile (fun x => x = '\n'))
    else c :: collapseNLF fuel cs

def collapseNL (s : List Char) : List Char := collapseNLF s.length s

/-- Embeds `clean_content` (lines 103-119): remove URLs, collapse `[label](target)`
links to their label, strip `edit…:` then `update…:` markers, collapse 3+
newlines to 2, and trim — in that order. -/
def clean_content (content : List Char) : List Char :=
  stripBoth (collapseNL (removeMarker ("update".data)
    (removeMarker ("edit".data) (collapseLinks (removeUrls content)))))

/-! #### The URL-removal pass leaves no URL match behind -/

theorem stripPfx_eq_some (p : List Char) :
    ∀ cs r, stripPfx p cs = some r ↔ cs = p ++ r := by
  induction p with
  | nil => intro cs r; simp [stripPfx]
  | cons a ps ih =>
    intro cs r
    cases cs with
    | nil => simp [stripPfx]
    | cons c cs' =>
      by_cases h : a = c
      · subst h
        simp only [stripPfx, eq_self_iff_true, if_true, ih cs' r, List.cons_append,
          List.cons.injEq, true_and]
      · simp only [stripPfx, if_neg h, List.cons_append]
        constructor
        · intro hh; exact Option.noConfusion hh
        · intro hh
          injection hh with h1 _
          exact absurd h1.symm h

theorem dropWhile_length_le (q : Char → Bool) :
    ∀ l : List Char, (l.dropWhile q).length ≤ l.length := by
  intro l
  induction l with
  | nil => exact Nat.le_refl _
  | cons a t ih =>
    rw [List.dropWhile_cons]
    by_cases h : q a = true
    · rw [if_pos h]
      exact Nat.le_succ_of_le ih
    · rw [if_neg h]

theorem dropWhile_head_prop {q : Char → Bool} :
    ∀ {l : List Char} {d : Char} {r : List Char},
      l.dropWhile q = d :: r → q d = false := by
  intro l
  induction l with
  | nil => intro d r h; exact List.noConfusion h
  | cons a t ih =>
    intro d r h
    rw [List.dropWhile_cons] at h
    by_cases hq : q a = true
    · rw [if_pos hq] at h
      exact ih h
    · rw [if_neg hq] at h
      injection h with h1 _
      rw [← h1]
      simpa using hq

theorem tryPfxUrl_eq_some {p cs r : List Char} (h : tryPfxUrl p cs = some r) :
    ∃ d rest, cs = p ++ d :: rest ∧ isWS d = false ∧
      r = rest.dropWhile (fun x => !isWS x) := by
  unfold tryPfxUrl at h
  cases hs : stripPfx p cs with
  | none => rw [hs] at h; exact Option.noConfusion h
  | some r1 =>
    rw [hs] at h
    cases r1 with
    | nil => exact Option.noConfusion h
    | cons d rest =>
      by_cases hw : isWS d = true
      · simp [hw] at h
      · simp only [if_neg hw, Option.some.injEq] at h
        exact ⟨d, rest, (stripPfx_eq_some p cs (d :: rest)).mp hs,
          by simpa using hw, h.symm⟩

theorem tryPfxUrl_isSome_of (p cs : List Char) (d : Char) (rest : List Char)
    (hcs : cs = p ++ d :: rest) (hd : isWS d = false) :
    (tryPfxUrl p cs).isSome = true := by
  unfold tryPfxUrl
  rw [(stripPfx_eq_some p cs (d :: rest)).mpr hcs]
  simp [hd]

theorem urlMatchAt_eq_some {cs r : List Char} (h : urlMatchAt cs = some r) :
    ∃ p d rest, (p = httpsL ∨ p = httpL) ∧ cs = p ++ d :: rest ∧
      isWS d = false ∧ r = rest.dropWhile (fun x => !isWS x) := by
  unfold urlMatchAt at h
  cases hs : tryPfxUrl httpsL cs with
  | some r' =>
    rw [hs] at h
    obtain ⟨d, rest, h1, h2, h3⟩ := tryPfxUrl_eq_some hs
    exact ⟨httpsL, d, rest, Or.inl rfl, h1, h2, (Option.some.inj h) ▸ h3⟩
  | none =>
    rw [hs] at h
    obtain ⟨d, rest, h1, h2, h3⟩ := tryPfxUrl_eq_some h
    exact ⟨httpL, d, rest, Or.inr rfl, h1, h2, h3⟩

theorem urlAt_true_of (cs p : List Char) (d : Char) (rest : List Char)
    (hp : p = httpsL ∨ p = httpL) (hcs : cs = p ++ d :: rest)
    (hd : isWS d = false) : urlAt cs = true := by
  unfold urlAt urlMatchAt
  cases hs : tryPfxUrl httpsL cs with
  | some r => rfl
  | none =>
    rcases hp with rfl | rfl
    · have := tryPfxUrl_isSome_of httpsL cs d rest hcs hd
      rw [hs] at this
      exact Bool.noConfusion this
    · exact tryPfxUrl_isSome_of httpL cs d rest hcs hd

theorem urlAt_head_h {c : Char} {cs : List Char} (h : urlAt (c :: cs) = true) :
    c = 'h' := by
  unfold urlAt at h
  obtain ⟨r, hr⟩ := Option.isSome_iff_exists.mp h
  obtain ⟨p, d, rest, hp, hcs, -, -⟩ := urlMatchAt_eq_some hr
  rcases hp with rfl | rfl <;>
  · have := congrArg List.head? hcs
    simp [httpsL, httpL] at this
    exact this

theorem urlMatchAt_none_of_ws {d : Char} {r₂ : List Char} (h : isWS d = true) :
    urlMatchAt (d :: r₂) = none := by
  cases hx : urlMatchAt (d :: r₂) with
  | none => rfl
  | some r =>
    have hh : d = 'h' := urlAt_head_h (by unfold urlAt; rw [hx]; rfl)
    rw [hh] at h
    exact absurd h (by decide)

theorem urlMatchAt_length {cs r : List Char} (h : urlMatchAt cs = some r) :
    r.length < cs.length := by
  obtain ⟨p, d, rest, hp, hcs, -, hr⟩ := urlMatchAt_eq_some h
  have h1 : r.length ≤ rest.length := by
    rw [hr]
    exact dropWhile_length_le _ rest
  have h2 := List.length_append p (d :: rest)
  have h3 : (d :: rest).length = rest.length + 1 := List.length_cons d rest
  rw [← hcs] at h2
  omega

theorem removeUrlsF_zero (cs : List Char) : removeUrlsF 0 cs = [] := rfl

theorem removeUrlsF_nilfuel (fuel : Nat) : removeUrlsF fuel [] = [] := by
  cases fuel <;> rfl

theorem removeUrlsF_match {fuel : Nat} {c : Char} {cs rest : List Char}
    (h : urlMatchAt (c :: cs) = some rest) :
    removeUrlsF (fuel + 1) (c :: cs) = removeUrlsF fuel rest := by
  simp only [removeUrlsF, h]

theorem removeUrlsF_nomatch {fuel : Nat} {c : Char} {cs : List Char}
    (h : urlMatchAt (c :: cs) = none) :
    removeUrlsF (fuel + 1) (c :: cs) = c :: removeUrlsF fuel cs := by
  simp only [removeUrlsF, h]

/-- Any non-whitespace, non-empty prefix of the URL-removal output is a
prefix of the input: removal only ever deletes up to a whitespace boundary,
so it cannot splice non-whitespace characters together. -/
theorem removeUrlsF_pfx : ∀ (fuel : Nat) (cs p r : List Char),
    removeUrlsF fuel cs = p ++ r → (∀ x ∈ p, isWS x = false) → p ≠ [] →
    p <+: cs := by
  intro fuel
  induction fuel with
  | zero =>
    intro cs p r h _ hne
    rw [removeUrlsF_zero] at h
    exact absurd (List.append_eq_nil.mp h.symm).1 hne
  | succ fuel ih =>
    intro cs p r h hws hne
    cases cs with
    | nil =>
      rw [removeUrlsF_nilfuel] at h
      exact absurd (List.append_eq_nil.mp h.symm).1 hne
    | cons c cs' =>
      cases hm : urlMatchAt (c :: cs') with
      | some rest =>
        rw [removeUrlsF_match hm] at h
        cases rest with
        | nil =>
          rw [removeUrlsF_nilfuel] at h
          exact absurd (List.append_eq_nil.mp h.symm).1 hne
        | cons d r₂ =>
          have hd : isWS d = true := by
            obtain ⟨pp, dd, rest', hp, hcs, hdd, hr⟩ := urlMatchAt_eq_some hm
            have := dropWhile_head_prop hr.symm
            simpa using this
          cases fuel with
          | zero =>
            rw [removeUrlsF_zero] at h
            exact absurd (List.append_eq_nil.mp h.symm).1 hne
          | succ fuel' =>
            rw [removeUrlsF_nomatch (urlMatchAt_none_of_ws hd)] at h
            cases p with
            | nil => exact absurd rfl hne
            | cons ph pt =>
              rw [List.cons_append] at h
              injection h with h1 _
              have hwsd : isWS ph = false := hws ph (List.mem_cons_self _ _)
              rw [h1] at hd
              rw [hd] at hwsd
              exact Bool.noConfusion hwsd
      | none =>
        rw [removeUrlsF_nomatch hm] at h
        cases p with
        | nil => exact absurd rfl hne
        | cons ph pt =>
          rw [List.cons_append] at h
          injection h with h1 h2
          subst h1
          by_cases hpt : pt = []
          · subst hpt
            exact ⟨cs', by simp⟩
          · obtain ⟨t, ht⟩ := ih cs' pt r h2
              (fun x hx => hws x (List.mem_cons_of_mem _ hx)) hpt
            exact ⟨t, by rw [List.cons_append, ht]⟩

theorem containsUrl_cons (c : Char) (cs : List Char) :
    containsUrl (c :: cs) = (urlAt (c :: cs) || containsUrl cs) := rfl

theorem removeUrlsF_noUrl : ∀ (fuel : Nat) (cs : List Char), cs.length ≤ fuel →
    containsUrl (removeUrlsF fuel cs) = false := by
  intro fuel
  induction fuel with
  | zero => intro cs _; rfl
  | succ fuel ih =>
    intro cs h
    cases cs with
    | nil => rfl
    | cons c cs' =>
      cases hm : urlMatchAt (c :: cs') with
      | some rest =>
        rw [removeUrlsF_match hm]
        refine ih rest ?_
        have h1 := urlMatchAt_length hm
        simp only [List.length_cons] at h h1
        omega
      | none =>
        rw [removeUrlsF_nomatch hm, containsUrl_cons]
        have hrec : containsUrl (removeUrlsF fuel cs') = false := by
          refine ih cs' ?_
          simp only [List.length_cons] at h
          omega
        rw [hrec, Bool.or_false]
        cases hx : urlAt (c :: removeUrlsF fuel cs') with
        | false => rfl
        | true =>
          exfalso
          obtain ⟨rr, hrr⟩ := Option.isSome_iff_exists.mp
            (by unfold urlAt at hx; exact hx)
          obtain ⟨p, d, rest, hp, hcs, hd, -⟩ := urlMatchAt_eq_some hrr
          have hcs2 : removeUrlsF (fuel + 1) (c :: cs') = (p ++ [d]) ++ rest := by
            rw [removeUrlsF_nomatch hm, hcs, List.append_assoc]
            simp
          have hws : ∀ x ∈ p ++ [d], isWS x = false := by
            intro x hx2
            rcases List.mem_append.mp hx2 with hxp | hxd
            · rcases hp with rfl | rfl
              · exact (by decide : ∀ y ∈ httpsL, isWS y = false) x hxp
              · exact (by decide : ∀ y ∈ httpL, isWS y = false) x hxp
            · rw [show x = d by simpa using hxd]
              exact hd
          obtain ⟨t, ht⟩ := removeUrlsF_pfx (fuel + 1) (c :: cs') (p ++ [d]) rest
            hcs2 hws (by simp)
          have hurl : urlAt (c :: cs') = true := by
            refine urlAt_true_of (c :: cs') p d t hp ?_ hd
            rw [← ht, List.append_assoc]
            simp
          unfold urlAt at hurl
          rw [hm] at hurl
          exact Bool.noConfusion hurl

/-- C9 counterexample: the input `"http://a [h](z)ttp://x"` contains a URL
substring, and the Normalizer's output on it is `"http://x"`, which again
contains a URL substring (the URL-removal pass ran first, and the later
link-collapse pass spliced a new URL together). -/
theorem clean_content_url_reintroduced_cex :
    containsUrl ("http://a [h](z)ttp://x".data) = true ∧
    containsUrl (clean_content ("http://a [h](z)ttp://x".data)) = true := by
  decide

/-- C9 amended: for every raw body, the URL-removal pass itself leaves no
`https?://\S+` match in its output, and `clean_content` applies the five
rules in the specified order as a pure function; the later rules can,
however, reintroduce a URL-shaped substring (see the counterexample), so the
no-URL guarantee holds after the URL-removal pass rather than at the very end
of the Normalizer. -/
theorem remove_urls_no_url_and_order (s : List Char) :
    containsUrl (removeUrls s) = false ∧
    clean_content s =
      stripBoth (collapseNL (removeMarker ("update".data)
        (removeMarker ("edit".data) (collapseLinks (removeUrls s))))) :=
  ⟨removeUrlsF_noUrl s.length s (Nat.le_refl _), rfl⟩

/-- Instantiation of `remove_urls_no_url_and_order` at a concrete body with a
URL. -/
theorem remove_urls_no_url_and_order_witness :
    containsUrl (removeUrls ("see http://a.com now".data)) = false :=
  (remove_urls_no_url_and_order ("see http://a.com now".data)).1

end HeardApp
